/-
  Verification of the SetupVault core (crates sv-core, sv-fs, sv-detectors,
  sv-cli) against its specification.

  Shallow embedding conventions:
  * Rust `String`/`&str` values are represented as `List Char`.
  * Rust `str::trim` / `trim_start` / `trim_end` remove whitespace using
    `Char.isWhitespace` (the ASCII subset of Rust's Unicode whitespace,
    which is all that the data under verification contains).
  * `Uuid` and `DateTime<Utc>` are opaque to every algorithm verified here
    and are represented as `Nat`.
  * Fallible Rust functions returning `CoreResult<T>` become
    `Except CoreErr T`.
  * External processes are modelled by an environment function mapping a
    command and its arguments to an outcome (binary missing / IO error /
    exit status plus captured stdout), mirroring `std::process::Command`.
-/
import Mathlib

/-- Convert a string literal to the `List Char` representation. -/
def str (s : String) : List Char := s.toList

/-- `str::trim_start`: drop leading whitespace. -/
def trimStart (l : List Char) : List Char := l.dropWhile Char.isWhitespace

/-- `str::trim_end`: drop trailing whitespace. -/
def trimEnd (l : List Char) : List Char :=
  (l.reverse.dropWhile Char.isWhitespace).reverse

/-- `str::trim`: drop leading and trailing whitespace. -/
def trim (l : List Char) : List Char := trimEnd (trimStart l)

/-- Split a character list at every occurrence of `sep`; the result always
has one more piece than there are separators (so it is never empty). -/
def splitOnChar (sep : Char) : List Char → List (List Char)
  | [] => [[]]
  | c :: rest =>
    if c = sep then [] :: splitOnChar sep rest
    else
      match splitOnChar sep rest with
      | [] => [[c]]
      | p :: ps => (c :: p) :: ps

/-- Split at newline characters (pieces of `str::lines` before the
trailing-piece and carriage-return adjustments). -/
def splitOnNl : List Char → List (List Char) := splitOnChar '\n'

/-- `str::lines` drops a final `'\r'` from each line. -/
def stripCr (l : List Char) : List Char :=
  if l.getLast? = some '\r' then l.dropLast else l

/-- `str::lines`: split on `'\n'`, dropping the empty piece produced by a
final terminator (also turning `""` into no lines), and strip a trailing
`'\r'` from each line. -/
def linesOf (l : List Char) : List (List Char) :=
  let p := splitOnNl l
  (if p.getLast? = some [] then p.dropLast else p).map stripCr

/-- `Vec::join("\n")` on a list of lines. -/
def joinNl : List (List Char) → List Char
  | [] => []
  | [x] => x
  | x :: xs => x ++ '\n' :: joinNl xs

/-- First-occurrence substring search: `haystack.find(marker)` returning
the text before and after the first match. -/
def splitFirst (m : List Char) : List Char → Option (List Char × List Char)
  | [] => if m.isPrefixOf ([] : List Char) then some ([], []) else none
  | c :: rest =>
    if m.isPrefixOf (c :: rest) then some ([], (c :: rest).drop m.length)
    else (splitFirst m rest).map (fun p => (c :: p.1, p.2))

/-! ## sv-core: domain types (src/crates/sv-core/src/lib.rs) -/

/-- `CoreError`. -/
inductive CoreErr where
  | Validation (msg : List Char)
  | Storage (msg : List Char)
deriving DecidableEq, Repr

/-- `Tag`: a label wrapping a non-empty string. -/
structure Tag where
  value : List Char
deriving DecidableEq, Repr

/-- `Tag::new`: rejects empty or whitespace-only values. -/
def Tag.new (value : List Char) : Except CoreErr Tag :=
  if trim value = [] then .error (.Validation (str "tag cannot be empty"))
  else .ok ⟨value⟩

/-- `Tag::as_str`. -/
def Tag.as_str (t : Tag) : List Char := t.value

/-- `Rationale`: mandatory free text. -/
structure Rationale where
  text : List Char
deriving DecidableEq, Repr

/-- `Rationale::new`: rejects empty or whitespace-only values. -/
def Rationale.new (text : List Char) : Except CoreErr Rationale :=
  if trim text = [] then .error (.Validation (str "rationale cannot be empty"))
  else .ok ⟨text⟩

/-- `Rationale::as_str`. -/
def Rationale.as_str (r : Rationale) : List Char := r.text

/-- `EntryType`. -/
inductive EntryType where
  | Package | Config | Application | Script | Other
deriving DecidableEq, Repr

/-- `EntryStatus`. -/
inductive EntryStatus where
  | Active | Snoozed | Ignored
deriving DecidableEq, Repr

/-- `SystemInfo`. -/
structure SystemInfo where
  os : List Char
  arch : List Char
deriving DecidableEq, Repr

/-- `Entry`: a durable record. `id` and `detected_at` are opaque (`Nat`). -/
structure Entry where
  id : Nat
  title : List Char
  entry_type : EntryType
  source : List Char
  cmd : List Char
  system : SystemInfo
  detected_at : Nat
  status : EntryStatus
  tags : List Tag
  rationale : Rationale
  verification : Option (List Char)
deriving DecidableEq, Repr

/-- `Entry::new`: validates that title, source and cmd are non-empty after
trimming. -/
def Entry.new (id : Nat) (title : List Char) (entry_type : EntryType)
    (source : List Char) (cmd : List Char) (system : SystemInfo)
    (detected_at : Nat) (status : EntryStatus) (tags : List Tag)
    (rationale : Rationale) (verification : Option (List Char)) :
    Except CoreErr Entry :=
  if trim title = [] then .error (.Validation (str "title cannot be empty"))
  else if trim source = [] then .error (.Validation (str "source cannot be empty"))
  else if trim cmd = [] then .error (.Validation (str "cmd cannot be empty"))
  else .ok ⟨id, title, entry_type, source, cmd, system, detected_at, status,
            tags, rationale, verification⟩

/-- `DetectedChange`: an ephemeral staged record. -/
structure DetectedChange where
  id : Nat
  path : Option (List Char)
  title : List Char
  entry_type : EntryType
  source : List Char
  cmd : List Char
  system : SystemInfo
  detected_at : Nat
  tags : List Tag
deriving DecidableEq, Repr

deriving instance DecidableEq for Except

/-! ## sv-fs: the entry document codec (src/crates/sv-fs/src/lib.rs) -/

/-- The `Frontmatter` struct serialized into the YAML block. -/
structure Frontmatter where
  id : Nat
  title : List Char
  entry_type : EntryType
  source : List Char
  cmd : List Char
  system : SystemInfo
  detected_at : Nat
  status : EntryStatus
  tags : List (List Char)
deriving DecidableEq, Repr

/-- The `Frontmatter` value built from an entry inside `render_entry`. -/
def frontmatter_of (e : Entry) : Frontmatter :=
  ⟨e.id, e.title, e.entry_type, e.source, e.cmd, e.system, e.detected_at,
   e.status, e.tags.map Tag.as_str⟩

/-- `render_entry`: frontmatter block followed by the two body sections.
The `serde_yaml::to_string` call on the frontmatter is an external
library; it is abstracted as the `yamlEnc` parameter (the serialization
error path of `serde_yaml` is not modelled). -/
def render_entry (yamlEnc : Frontmatter → List Char) (e : Entry) : List Char :=
  str "---\n" ++ yamlEnc (frontmatter_of e) ++ str "---\n\n"
    ++ str "# Rationale\n" ++ e.rationale.as_str
    ++ str "\n\n# Verification\n"
    ++ (match e.verification with | some v => v | none => []) ++ ['\n']

/-- `split_frontmatter`: requires the leading `---` line, then cuts the
document at the first `\n---\n` marker. -/
def split_frontmatter (contents : List Char) :
    Except CoreErr (List Char × List Char) :=
  let header := str "---\n"
  if header.isPrefixOf contents then
    let remainder := contents.drop header.length
    match splitFirst (str "\n---\n") remainder with
    | none => .error (.Storage (str "unterminated frontmatter"))
    | some (frontmatter, body) => .ok (trimEnd frontmatter, trimStart body)
  else .error (.Storage (str "missing frontmatter header"))

/-- `parse_frontmatter`: deserialize the frontmatter block.
`serde_yaml::from_str` is abstracted as the `yamlDec` parameter. -/
def parse_frontmatter (yamlDec : List Char → Option Frontmatter)
    (contents : List Char) : Except CoreErr Frontmatter := do
  let (frontmatter, _) ← split_frontmatter contents
  match yamlDec frontmatter with
  | some fm => .ok fm
  | none => .error (.Storage (str "invalid frontmatter"))

/-- `parse_body`. -/
def parse_body (contents : List Char) : Except CoreErr (List Char) := do
  let (_, body) ← split_frontmatter contents
  .ok body

/-- The stop condition of `extract_section`'s inner loop:
`line.trim_start().starts_with("# ")`. -/
def isStopLine (line : List Char) : Bool :=
  (str "# ").isPrefixOf (trimStart line)

/-- The inner loop of `extract_section`: collect lines up to (excluding)
the next heading line. -/
def collectSection : List (List Char) → List (List Char)
  | [] => []
  | line :: rest =>
    if isStopLine line then [] else line :: collectSection rest

/-- The outer loop of `extract_section` over the body's lines. -/
def extractSectionLines (heading : List Char) :
    List (List Char) → Option (List Char)
  | [] => none
  | line :: rest =>
    if trim line = str "# " ++ heading then
      some (trim (joinNl (collectSection rest)))
    else extractSectionLines heading rest

/-- `extract_section`: find `# <heading>` and return the trimmed text up
to the next heading or the end of the body. -/
def extract_section (body heading : List Char) : Option (List Char) :=
  extractSectionLines heading (linesOf body)

/-- The `tags.into_iter().map(Tag::new).collect::<CoreResult<Vec<_>>>()`
step of `parse_entry`. -/
def collectTags : List (List Char) → Except CoreErr (List Tag)
  | [] => .ok []
  | t :: rest => do
    let tag ← Tag.new t
    let tags ← collectTags rest
    .ok (tag :: tags)

/-- `parse_entry`: parse frontmatter and body and rebuild the `Entry`. -/
def parse_entry (yamlDec : List Char → Option Frontmatter)
    (contents : List Char) : Except CoreErr Entry := do
  let frontmatter ← parse_frontmatter yamlDec contents
  let body ← parse_body contents
  let rationaleText ←
    match extract_section body (str "Rationale") with
    | some text => .ok text
    | none => .error (.Storage (str "missing rationale section"))
  let rationale ← Rationale.new rationaleText
  let verification := extract_section body (str "Verification")
  let tags ← collectTags frontmatter.tags
  Entry.new frontmatter.id frontmatter.title frontmatter.entry_type
    frontmatter.source frontmatter.cmd frontmatter.system
    frontmatter.detected_at frontmatter.status tags rationale verification

/-! ## sv-fs: inbox / snoozed state operations

The filesystem load/save pairs are modelled by passing the persisted
lists in and returning the lists that are saved back; an operation that
performs no save returns its inputs unchanged.  I/O failures of
`fs::read_to_string` / `fs::write` are outside the model. -/

/-- `add_inbox_item`: load the inbox, push, save. -/
def add_inbox_item (inbox : List DetectedChange) (item : DetectedChange) :
    List DetectedChange :=
  inbox ++ [item]

/-- `iter().position(...)` followed by `remove(position)`: locate the
first element with the given id and take it out of the list. -/
def extractById (id : Nat) : List DetectedChange →
    Option (DetectedChange × List DetectedChange)
  | [] => none
  | c :: rest =>
    if c.id = id then some (c, rest)
    else (extractById id rest).map (fun p => (p.1, c :: p.2))

/-- `snooze_inbox_item`: move the first inbox item with the given id to
the end of the snoozed list; a silent no-op when the id is absent. -/
def snooze_inbox_item (id : Nat)
    (inbox snoozed : List DetectedChange) :
    List DetectedChange × List DetectedChange :=
  match extractById id inbox with
  | none => (inbox, snoozed)
  | some (item, inbox') => (inbox', snoozed ++ [item])

/-- `unsnooze_item`: move the first snoozed item with the given id to the
end of the inbox; a silent no-op when the id is absent. -/
def unsnooze_item (id : Nat)
    (inbox snoozed : List DetectedChange) :
    List DetectedChange × List DetectedChange :=
  match extractById id snoozed with
  | none => (inbox, snoozed)
  | some (item, snoozed') => (inbox ++ [item], snoozed')

/-- The `DetectedChange` built inside `restore_to_inbox` from a deleted
entry: a fresh identifier is minted and the origin path is lost. -/
def restore_change_of (e : Entry) (newId : Nat) : DetectedChange :=
  ⟨newId, none, e.title, e.entry_type, e.source, e.cmd, e.system,
   e.detected_at, e.tags⟩

/-- `restore_to_inbox`, restricted to its inbox effect: the deleted
entry's change record is appended through `add_inbox_item`. -/
def restore_to_inbox (e : Entry) (newId : Nat)
    (inbox : List DetectedChange) : List DetectedChange :=
  add_inbox_item inbox (restore_change_of e newId)

/-! ## sv-detectors (src/crates/sv-detectors/src/lib.rs) -/

/-- Outcome of launching an external process: the binary may be missing
(`io::ErrorKind::NotFound`), the launch may fail otherwise, or the
process runs and exits with a success flag and captured stdout. -/
inductive CmdOutcome where
  | notFound
  | ioError (msg : List Char)
  | exited (success : Bool) (stdout : List Char)
deriving DecidableEq, Repr

/-- The process environment: what `Command::new(cmd).args(args).output()`
would yield for each invocation. -/
def CmdEnv : Type := List Char → List (List Char) → CmdOutcome

/-- `run_command`: a missing binary is a successful empty result; any
other launch failure or a non-zero exit status is a hard `Storage`
error.  (Stdout is modelled as text, so the UTF-8 decoding error path
does not arise.) -/
def run_command (env : CmdEnv) (command : List Char)
    (args : List (List Char)) : Except CoreErr (List Char) :=
  match env command args with
  | .notFound => .ok []
  | .ioError msg => .error (.Storage msg)
  | .exited true stdout => .ok stdout
  | .exited false _ =>
    .error (.Storage (command ++ str " exited with non-zero status"))

/-- The line preprocessing shared by the brew/npm scans:
`lines().map(str::trim).filter(|line| !line.is_empty())`. -/
def cleanLines (output : List Char) : List (List Char) :=
  ((linesOf output).map trim).filter (fun line => ¬ line = [])

/-- The formula loop of `BrewDetector::scan`.  `Uuid::new_v4()` is
modelled by the supply `fresh` applied to the running index. -/
def brewFormulaChanges (fresh : Nat → Nat) (base : Nat) (now : Nat)
    (system : SystemInfo) (tag : Tag) (output : List Char) :
    List DetectedChange :=
  (cleanLines output).mapIdx (fun i line =>
    ⟨fresh (base + i), none, line, .Package, str "homebrew",
     str "brew install " ++ line, system, now, [tag]⟩)

/-- The cask loop of `BrewDetector::scan`. -/
def brewCaskChanges (fresh : Nat → Nat) (base : Nat) (now : Nat)
    (system : SystemInfo) (tag : Tag) (output : List Char) :
    List DetectedChange :=
  (cleanLines output).mapIdx (fun i line =>
    ⟨fresh (base + i), none, line, .Application, str "homebrew",
     str "brew install --cask " ++ line, system, now, [tag]⟩)

/-- `BrewDetector::scan`: note that both `run_command` results are
consumed with `if let Ok(output) = ...`, so a `run_command` error is
silently skipped rather than propagated. -/
def brew_scan (env : CmdEnv) (system : SystemInfo) (now : Nat)
    (fresh : Nat → Nat) : Except CoreErr (List DetectedChange) := do
  let package_tag ← Tag.new (str "package")
  let app_tag ← Tag.new (str "application")
  let formulae :=
    match run_command env (str "brew") [str "list", str "--formula"] with
    | .ok output => brewFormulaChanges fresh 0 now system package_tag output
    | .error _ => []
  let casks :=
    match run_command env (str "brew") [str "list", str "--cask"] with
    | .ok output =>
      brewCaskChanges fresh formulae.length now system app_tag output
    | .error _ => []
  .ok (formulae ++ casks)

/-- `line.rsplit('/').next().unwrap_or(line)`: the text after the last
slash. -/
def lastSegment (line : List Char) : List Char :=
  (splitOnChar '/' line).getLastD line

/-- `NpmDetector::scan`: the `run_command` error is propagated with `?`;
the first output line (the npm root) is skipped. -/
def npm_scan (env : CmdEnv) (system : SystemInfo) (now : Nat)
    (fresh : Nat → Nat) : Except CoreErr (List DetectedChange) := do
  let output ← run_command env (str "npm")
    [str "list", str "-g", str "--depth=0", str "--parseable"]
  let tag ← Tag.new (str "package")
  let rest := (linesOf output).tail
  let lines := (rest.map trim).filter (fun line => ¬ line = [])
  .ok (lines.mapIdx (fun i line =>
    let name := lastSegment line
    ⟨fresh i, none, name, .Package, str "npm",
     str "npm install -g " ++ name, system, now, [tag]⟩))

/-- `split_columns`: accumulate characters, treating a run of two or more
whitespace characters as a column boundary and re-inserting a single
space for an isolated whitespace character. -/
def splitColumnsGo (columns : List (List Char)) (current : List Char)
    (spaceRun : Nat) : List Char → List (List Char)
  | [] =>
    let trimmed := trim current
    if ¬ trimmed = [] then columns ++ [trimmed] else columns
  | ch :: rest =>
    if ch.isWhitespace then splitColumnsGo columns current (spaceRun + 1) rest
    else if spaceRun ≥ 2 then
      let trimmed := trim current
      let columns := if ¬ trimmed = [] then columns ++ [trimmed] else columns
      splitColumnsGo columns [ch] 0 rest
    else if spaceRun = 1 then
      splitColumnsGo columns (current ++ [' ', ch]) 0 rest
    else
      splitColumnsGo columns (current ++ [ch]) 0 rest

/-- `split_columns`. -/
def split_columns (line : List Char) : List (List Char) :=
  splitColumnsGo [] [] 0 line

/-- `run_detectors`: one unit of work per detector, modelled by the
ordered list of the detectors' scan results; the awaiting loop returns
the first hard error and otherwise concatenates all change lists. -/
def run_detectors (results : List (Except CoreErr (List DetectedChange))) :
    Except CoreErr (List DetectedChange) :=
  match results with
  | [] => .ok []
  | r :: rest =>
    match r with
    | .error e => .error e
    | .ok changes =>
      match run_detectors rest with
      | .error e => .error e
      | .ok more => .ok (changes ++ more)

/-! ## sv-cli: snapshot diff and inbox merge (src/crates/sv-cli/src/lib.rs) -/

/-- The `(source, title)` deduplication key. -/
def keyOf (c : DetectedChange) : List Char × List Char := (c.source, c.title)

/-- `diff_changes`: keep the current items whose key is absent from the
previous snapshot (the `HashSet` of previous keys is modelled by list
membership). -/
def diff_changes (previous current : List DetectedChange) :
    List DetectedChange :=
  current.filter (fun change => ¬ keyOf change ∈ previous.map keyOf)

/-- The loop of `append_unique`; `seen` mirrors the `HashSet` of keys,
initially those of the target, growing as items are appended. -/
def appendUniqueGo (seen : List (List Char × List Char))
    (target : List DetectedChange) :
    List DetectedChange → List DetectedChange
  | [] => target
  | change :: rest =>
    if keyOf change ∈ seen then appendUniqueGo seen target rest
    else appendUniqueGo (keyOf change :: seen) (target ++ [change]) rest

/-- `append_unique`: append the incoming items whose `(source, title)`
key is not yet present. -/
def append_unique (target incoming : List DetectedChange) :
    List DetectedChange :=
  appendUniqueGo (target.map keyOf) target incoming

/-! ## Sample data used by witnesses and counterexamples -/

/-- A sample staged change with a given identifier, source and title. -/
def sampleChange (id : Nat) (source title : String) : DetectedChange :=
  ⟨id, none, str title, .Package, str source, str "cmd",
   ⟨str "os", str "arch"⟩, 0, []⟩

/-! ## C3: snapshot diff -/

/-- C3: `diff_changes S C` contains exactly the items of `C` whose
`(source, title)` key occurs in no item of `S` (case-sensitive equality),
and `diff_changes C C` is empty. -/
theorem diff_changes_exactly_new :
    (∀ (S C : List DetectedChange) (c : DetectedChange),
        c ∈ diff_changes S C ↔ c ∈ C ∧ ∀ s ∈ S, keyOf s ≠ keyOf c) ∧
    (∀ C : List DetectedChange, diff_changes C C = []) := by
  have hmem : ∀ (S C : List DetectedChange) (c : DetectedChange),
      c ∈ diff_changes S C ↔ c ∈ C ∧ ∀ s ∈ S, keyOf s ≠ keyOf c := by
    intro S C c
    simp only [diff_changes, List.mem_filter, decide_eq_true_eq, List.mem_map,
      not_exists, not_and]
  refine ⟨hmem, fun C => ?_⟩
  rw [List.eq_nil_iff_forall_not_mem]
  intro c hc
  obtain ⟨hcC, hk⟩ := (hmem C C c).mp hc
  exact hk c hcC rfl

/-- C3 witness: concrete instance of both conjuncts. -/
theorem diff_changes_exactly_new_witness :
    (sampleChange 1 "homebrew" "jq" ∈
      diff_changes [sampleChange 0 "homebrew" "fd"] [sampleChange 1 "homebrew" "jq"]) ∧
    diff_changes [sampleChange 0 "homebrew" "fd"] [sampleChange 0 "homebrew" "fd"] = [] :=
  ⟨(diff_changes_exactly_new.1 _ _ _).mpr ⟨by decide, by decide⟩,
   diff_changes_exactly_new.2 _⟩

/-! ## C5: orchestrator -/

/-- C5: `run_detectors` fails whenever some detector reported a hard
error (no partial result), and on all-success returns the concatenation
of the change lists. -/
theorem run_detectors_all_or_nothing :
    (∀ results : List (Except CoreErr (List DetectedChange)),
        (∃ e, Except.error e ∈ results) →
        ∃ e, run_detectors results = .error e) ∧
    (∀ css : List (List DetectedChange),
        run_detectors (css.map Except.ok) = .ok css.flatten) := by
  constructor
  · intro results
    induction results with
    | nil => rintro ⟨e, he⟩; cases he
    | cons r rest ih =>
      rintro ⟨e, he⟩
      cases r with
      | error e' => exact ⟨e', rfl⟩
      | ok cs =>
        have : Except.error e ∈ rest := by
          rcases List.mem_cons.mp he with h | h
          · cases h
          · exact h
        obtain ⟨e', he'⟩ := ih ⟨e, this⟩
        refine ⟨e', ?_⟩
        simp [run_detectors, he']
  · intro css
    induction css with
    | nil => rfl
    | cons cs rest ih => simp [run_detectors, ih]

/-- C5 witness: a failing scan poisons the whole run; successful scans
concatenate. -/
theorem run_detectors_all_or_nothing_witness :
    (∃ e, run_detectors [.ok [sampleChange 0 "homebrew" "jq"],
        .error (.Storage (str "boom"))] = .error e) ∧
    run_detectors [Except.ok [sampleChange 0 "homebrew" "jq"],
        Except.ok [sampleChange 1 "npm" "left-pad"]]
      = .ok [sampleChange 0 "homebrew" "jq", sampleChange 1 "npm" "left-pad"] := by
  constructor
  · exact run_detectors_all_or_nothing.1 _ ⟨.Storage (str "boom"), by decide⟩
  · exact (run_detectors_all_or_nothing.2
      [[sampleChange 0 "homebrew" "jq"], [sampleChange 1 "npm" "left-pad"]]).trans
      (by decide)

/-! ## C9: unconditional inbox append -/

/-- C9: `add_inbox_item` appends unconditionally, so restoring an entry
whose `(source, title)` key already sits in the inbox yields a second
inbox item with that key. -/
theorem add_inbox_item_no_dedup :
    ∀ (inbox : List DetectedChange) (item : DetectedChange) (e : Entry)
      (newId : Nat),
      add_inbox_item inbox item = inbox ++ [item] ∧
      (restore_to_inbox e newId inbox).countP
          (fun c => keyOf c = (e.source, e.title))
        = inbox.countP (fun c => keyOf c = (e.source, e.title)) + 1 ∧
      (1 ≤ inbox.countP (fun c => keyOf c = (e.source, e.title)) →
        2 ≤ (restore_to_inbox e newId inbox).countP
          (fun c => keyOf c = (e.source, e.title))) := by
  intro inbox item e newId
  have hcount : (restore_to_inbox e newId inbox).countP
      (fun c => keyOf c = (e.source, e.title))
      = inbox.countP (fun c => keyOf c = (e.source, e.title)) + 1 := by
    simp [restore_to_inbox, add_inbox_item, List.countP_append,
      restore_change_of, List.countP_cons, keyOf]
  exact ⟨rfl, hcount, fun h => by omega⟩

/-- C9 witness: restoring on top of an existing key gives two items with
that key. -/
theorem add_inbox_item_no_dedup_witness :
    add_inbox_item [] (sampleChange 0 "homebrew" "jq")
      = [sampleChange 0 "homebrew" "jq"] ∧
    2 ≤ (restore_to_inbox
          ⟨9, str "jq", .Package, str "homebrew", str "brew install jq",
           ⟨str "os", str "arch"⟩, 0, .Active, [], ⟨str "why"⟩, none⟩ 3
          [sampleChange 0 "homebrew" "jq"]).countP
        (fun c => keyOf c = (str "homebrew", str "jq")) :=
  ⟨(add_inbox_item_no_dedup [] (sampleChange 0 "homebrew" "jq")
      ⟨9, str "jq", .Package, str "homebrew", str "brew install jq",
       ⟨str "os", str "arch"⟩, 0, .Active, [], ⟨str "why"⟩, none⟩ 3).1,
   (add_inbox_item_no_dedup [sampleChange 0 "homebrew" "jq"]
      (sampleChange 0 "homebrew" "jq")
      ⟨9, str "jq", .Package, str "homebrew", str "brew install jq",
       ⟨str "os", str "arch"⟩, 0, .Active, [], ⟨str "why"⟩, none⟩ 3).2.2
     (by decide)⟩

/-! ## C10 / C6: snooze and unsnooze -/

/-- An absent identifier makes `extractById` return `none`. -/
theorem extractById_eq_none {id : Nat} {l : List DetectedChange}
    (h : ∀ c ∈ l, c.id ≠ id) : extractById id l = none := by
  induction l with
  | nil => rfl
  | cons c rest ih =>
    have hc : ¬ c.id = id := h c (List.mem_cons_self c rest)
    simp only [extractById, if_neg hc]
    rw [ih (fun x hx => h x (List.mem_cons_of_mem c hx))]
    rfl

/-- `position` + `remove` find the first element with the identifier. -/
theorem extractById_first {id : Nat} {pre post : List DetectedChange}
    {c : DetectedChange} (hpre : ∀ x ∈ pre, x.id ≠ id) (hc : c.id = id) :
    extractById id (pre ++ c :: post) = some (c, pre ++ post) := by
  induction pre with
  | nil => simp [extractById, hc]
  | cons p rest ih =>
    have hp : ¬ p.id = id := hpre p (List.mem_cons_self p rest)
    simp only [List.cons_append, extractById, if_neg hp, List.append_eq]
    rw [ih (fun x hx => hpre x (List.mem_cons_of_mem p hx))]
    rfl

/-- C10: when the identifier occurs nowhere in the scanned list,
`snooze_inbox_item` and `unsnooze_item` succeed as silent no-ops that
leave both the inbox and the snoozed list unchanged. -/
theorem snooze_unsnooze_absent_noop :
    ∀ (id : Nat) (inbox snoozed : List DetectedChange),
      ((∀ c ∈ inbox, c.id ≠ id) →
        snooze_inbox_item id inbox snoozed = (inbox, snoozed)) ∧
      ((∀ c ∈ snoozed, c.id ≠ id) →
        unsnooze_item id inbox snoozed = (inbox, snoozed)) := by
  intro id inbox snoozed
  constructor
  · intro h
    simp [snooze_inbox_item, extractById_eq_none h]
  · intro h
    simp [unsnooze_item, extractById_eq_none h]

/-- C10 witness: identifier 5 is absent from both lists. -/
theorem snooze_unsnooze_absent_noop_witness :
    snooze_inbox_item 5 [sampleChange 1 "homebrew" "jq"]
        [sampleChange 2 "npm" "left-pad"]
      = ([sampleChange 1 "homebrew" "jq"], [sampleChange 2 "npm" "left-pad"]) ∧
    unsnooze_item 5 [sampleChange 1 "homebrew" "jq"]
        [sampleChange 2 "npm" "left-pad"]
      = ([sampleChange 1 "homebrew" "jq"], [sampleChange 2 "npm" "left-pad"]) :=
  ⟨(snooze_unsnooze_absent_noop 5 _ _).1 (by decide),
   (snooze_unsnooze_absent_noop 5 _ _).2 (by decide)⟩

/-- C6: snoozing an inbox item with identifier `id` removes exactly the
first such item and appends the identical record to the end of the
snoozed list; unsnoozing the same identifier (absent from the snoozed
list before the snooze) moves the identical record back into the
inbox. -/
theorem snooze_then_unsnooze :
    ∀ (id : Nat) (pre post snoozed : List DetectedChange)
      (c : DetectedChange),
      (∀ x ∈ pre, x.id ≠ id) → c.id = id → (∀ x ∈ snoozed, x.id ≠ id) →
      snooze_inbox_item id (pre ++ c :: post) snoozed
        = (pre ++ post, snoozed ++ [c]) ∧
      unsnooze_item id (pre ++ post) (snoozed ++ [c])
        = (pre ++ post ++ [c], snoozed) := by
  intro id pre post snoozed c hpre hc hsn
  constructor
  · simp [snooze_inbox_item, extractById_first hpre hc]
  · have h := @extractById_first id snoozed [] c hsn hc
    simp only [List.append_nil] at h
    simp [unsnooze_item, h]

/-- C6 witness: snooze id 1 out of a two-item inbox, then unsnooze it. -/
theorem snooze_then_unsnooze_witness :
    snooze_inbox_item 1
        [sampleChange 0 "homebrew" "fd", sampleChange 1 "homebrew" "jq"]
        [sampleChange 2 "npm" "left-pad"]
      = ([sampleChange 0 "homebrew" "fd"],
         [sampleChange 2 "npm" "left-pad", sampleChange 1 "homebrew" "jq"]) ∧
    unsnooze_item 1 [sampleChange 0 "homebrew" "fd"]
        [sampleChange 2 "npm" "left-pad", sampleChange 1 "homebrew" "jq"]
      = ([sampleChange 0 "homebrew" "fd", sampleChange 1 "homebrew" "jq"],
         [sampleChange 2 "npm" "left-pad"]) := by
  have h := snooze_then_unsnooze 1 [sampleChange 0 "homebrew" "fd"] []
    [sampleChange 2 "npm" "left-pad"] (sampleChange 1 "homebrew" "jq")
    (by decide) (by decide) (by decide)
  simpa using h

/-! ## C8: Rationale and Tag validation -/

/-- `trim` yields the empty list exactly on whitespace-only input. -/
theorem trim_eq_nil_iff {l : List Char} :
    trim l = [] ↔ ∀ c ∈ l, c.isWhitespace := by
  unfold trim trimEnd trimStart
  constructor
  · intro h c hc
    have hrev : (l.dropWhile Char.isWhitespace).reverse.dropWhile
        Char.isWhitespace = [] := by
      simpa using congrArg List.reverse h
    have hall := List.dropWhile_eq_nil_iff.mp hrev
    by_cases hmem : c ∈ l.dropWhile Char.isWhitespace
    · exact hall c (List.mem_reverse.mpr hmem)
    · -- c sits in the dropped prefix, which is all whitespace
      have hsplit := List.takeWhile_append_dropWhile
        (p := Char.isWhitespace) (l := l)
      rw [← hsplit] at hc
      rcases List.mem_append.mp hc with h1 | h1
      · exact List.mem_takeWhile_imp h1
      · exact absurd h1 hmem
  · intro h
    have : l.dropWhile Char.isWhitespace = [] :=
      List.dropWhile_eq_nil_iff.mpr (fun c hc => h c hc)
    simp [this]

/-- C8: any text with a non-whitespace character constructs a `Rationale`
and a `Tag` whose accessor returns it unchanged; empty or whitespace-only
text is rejected with a `Validation` error. -/
theorem rationale_tag_validation :
    ∀ t : List Char,
      ((∃ c ∈ t, ¬ c.isWhitespace) →
        Rationale.new t = .ok ⟨t⟩ ∧ Tag.new t = .ok ⟨t⟩ ∧
        Rationale.as_str ⟨t⟩ = t ∧ Tag.as_str ⟨t⟩ = t) ∧
      ((∀ c ∈ t, c.isWhitespace) →
        Rationale.new t
            = .error (.Validation (str "rationale cannot be empty")) ∧
        Tag.new t = .error (.Validation (str "tag cannot be empty"))) := by
  intro t
  constructor
  · rintro ⟨c, hc, hw⟩
    have hne : ¬ trim t = [] := fun h => hw (trim_eq_nil_iff.mp h c hc)
    exact ⟨by simp [Rationale.new, hne], by simp [Tag.new, hne], rfl, rfl⟩
  · intro h
    have he : trim t = [] := trim_eq_nil_iff.mpr h
    exact ⟨by simp [Rationale.new, he], by simp [Tag.new, he]⟩

/-- C8 witness: `" a "` is accepted verbatim; `"  "` is rejected. -/
theorem rationale_tag_validation_witness :
    (Rationale.new (str " a ") = .ok ⟨str " a "⟩ ∧
      Tag.new (str " a ") = .ok ⟨str " a "⟩ ∧
      Rationale.as_str ⟨str " a "⟩ = str " a " ∧
      Tag.as_str ⟨str " a "⟩ = str " a ") ∧
    (Rationale.new (str "  ")
        = .error (.Validation (str "rationale cannot be empty")) ∧
      Tag.new (str "  ") = .error (.Validation (str "tag cannot be empty"))) :=
  ⟨(rationale_tag_validation (str " a ")).1 ⟨'a', by decide, by decide⟩,
   (rationale_tag_validation (str "  ")).2 (by decide)⟩

/-! ## C4: idempotent inbox merge -/

/-- Invariant of `appendUniqueGo`: the target is preserved as a prefix,
appended items are a subsequence of the incoming list with keys outside
`seen`, and the length grows by the number of distinct incoming keys not
in `seen`. -/
theorem appendUniqueGo_spec (incoming : List DetectedChange) :
    ∀ (seen : List (List Char × List Char)) (target : List DetectedChange),
      ∃ appended,
        appendUniqueGo seen target incoming = target ++ appended ∧
        (∀ a ∈ appended, keyOf a ∉ seen) ∧
        appended.Sublist incoming ∧
        (appendUniqueGo seen target incoming).length =
          target.length +
            ((incoming.map keyOf).toFinset \ seen.toFinset).card := by
  induction incoming with
  | nil =>
    intro seen target
    exact ⟨[], by simp [appendUniqueGo], by simp, by simp,
           by simp [appendUniqueGo]⟩
  | cons c rest ih =>
    intro seen target
    by_cases h : keyOf c ∈ seen
    · obtain ⟨A, hEq, hNot, hSub, hLen⟩ := ih seen target
      refine ⟨A, ?_, hNot, hSub.cons c, ?_⟩
      · simpa [appendUniqueGo, h] using hEq
      · have hsd : ((c :: rest).map keyOf).toFinset \ seen.toFinset
            = (rest.map keyOf).toFinset \ seen.toFinset := by
          simp only [List.map_cons, List.toFinset_cons]
          exact Finset.insert_sdiff_of_mem _ (List.mem_toFinset.mpr h)
        have hgo : appendUniqueGo seen target (c :: rest)
            = appendUniqueGo seen target rest := by
          simp [appendUniqueGo, h]
        rw [hgo, hsd]
        exact hLen
    · obtain ⟨A, hEq, hNot, hSub, hLen⟩ := ih (keyOf c :: seen) (target ++ [c])
      refine ⟨c :: A, ?_, ?_, hSub.cons₂ c, ?_⟩
      · simpa [appendUniqueGo, h] using hEq
      · intro a ha
        rcases List.mem_cons.mp ha with rfl | ha
        · exact h
        · exact fun hmem => hNot a ha (List.mem_cons_of_mem _ hmem)
      · have hgo : appendUniqueGo seen target (c :: rest)
            = appendUniqueGo (keyOf c :: seen) (target ++ [c]) rest := by
          simp [appendUniqueGo, h]
        have hset : ((c :: rest).map keyOf).toFinset \ seen.toFinset
            = insert (keyOf c)
                ((rest.map keyOf).toFinset \ (keyOf c :: seen).toFinset) := by
          ext k
          simp only [List.map_cons, List.toFinset_cons, Finset.mem_sdiff,
            Finset.mem_insert, List.mem_toFinset, List.mem_cons]
          constructor
          · rintro ⟨hk1 | hk1, hk2⟩
            · exact Or.inl hk1
            · by_cases hkc : k = keyOf c
              · exact Or.inl hkc
              · exact Or.inr ⟨hk1, fun hor => by
                  rcases hor with hkc2 | hks
                  · exact hkc hkc2
                  · exact hk2 hks⟩
          · rintro (rfl | ⟨hk1, hk2⟩)
            · exact ⟨Or.inl rfl, h⟩
            · exact ⟨Or.inr hk1, fun hks => hk2 (Or.inr hks)⟩
        have hnotmem : keyOf c ∉
            (rest.map keyOf).toFinset \ (keyOf c :: seen).toFinset := by
          simp [Finset.mem_sdiff]
        rw [hgo, hLen, hset, Finset.card_insert_of_not_mem hnotmem]
        simp
        omega
/-- C4: `append_unique` preserves the target as a prefix, appends only
incoming items whose `(source, title)` key is not already in the target
(in incoming order), and the length grows by exactly the number of
genuinely new keys; an incoming item whose key is present is a no-op. -/
theorem append_unique_spec :
    ∀ (target incoming : List DetectedChange),
      ∃ appended,
        append_unique target incoming = target ++ appended ∧
        (∀ a ∈ appended, keyOf a ∉ target.map keyOf) ∧
        appended.Sublist incoming ∧
        (append_unique target incoming).length =
          target.length +
            ((incoming.map keyOf).toFinset \
              (target.map keyOf).toFinset).card := by
  intro target incoming
  exact appendUniqueGo_spec incoming (target.map keyOf) target

/-- C4 witness: one duplicate key is skipped, one new key is appended. -/
theorem append_unique_spec_witness :
    ∃ appended,
      append_unique [sampleChange 0 "homebrew" "jq"]
          [sampleChange 3 "homebrew" "jq", sampleChange 4 "homebrew" "fd"]
        = [sampleChange 0 "homebrew" "jq"] ++ appended ∧
      (∀ a ∈ appended,
        keyOf a ∉ [sampleChange 0 "homebrew" "jq"].map keyOf) ∧
      appended.Sublist
        [sampleChange 3 "homebrew" "jq", sampleChange 4 "homebrew" "fd"] ∧
      (append_unique [sampleChange 0 "homebrew" "jq"]
          [sampleChange 3 "homebrew" "jq", sampleChange 4 "homebrew" "fd"]).length
        = 1 + 1 := by
  have h := append_unique_spec [sampleChange 0 "homebrew" "jq"]
    [sampleChange 3 "homebrew" "jq", sampleChange 4 "homebrew" "fd"]
  obtain ⟨A, h1, h2, h3, h4⟩ := h
  refine ⟨A, h1, h2, h3, ?_⟩
  rw [h4]
  decide

/-! ## C2: external-process policy -/

/-- C2 (amended): `run_command` maps a missing binary to a successful
empty result and a non-zero exit to a hard `Storage` error; the npm
detector propagates that error, but `BrewDetector::scan` swallows it
through `if let Ok(..)` and still succeeds. -/
theorem run_command_policy :
    (∀ (env : CmdEnv) (c : List Char) (a : List (List Char)),
        env c a = .notFound → run_command env c a = .ok []) ∧
    (∀ (env : CmdEnv) (c : List Char) (a : List (List Char)) (out : List Char),
        env c a = .exited false out →
        run_command env c a
          = .error (.Storage (c ++ str " exited with non-zero status"))) ∧
    (∀ (env : CmdEnv) (sys : SystemInfo) (now : Nat) (fresh : Nat → Nat)
        (out : List Char),
        env (str "npm") [str "list", str "-g", str "--depth=0", str "--parseable"]
            = .exited false out →
        npm_scan env sys now fresh
          = .error (.Storage (str "npm" ++ str " exited with non-zero status"))) ∧
    (∀ (env : CmdEnv) (sys : SystemInfo) (now : Nat) (fresh : Nat → Nat)
        (outF : List Char),
        env (str "brew") [str "list", str "--formula"] = .exited false outF →
        env (str "brew") [str "list", str "--cask"] = .notFound →
        brew_scan env sys now fresh = .ok []) := by
  refine ⟨?_, ?_, ?_, ?_⟩
  · intro env c a h
    simp [run_command, h]
  · intro env c a out h
    simp [run_command, h]
  · intro env sys now fresh out h
    simp only [npm_scan, run_command, h]
    rfl
  · intro env sys now fresh outF h1 h2
    have hf : run_command env (str "brew") [str "list", str "--formula"]
        = .error (.Storage (str "brew" ++ str " exited with non-zero status")) := by
      simp [run_command, h1]
    have hc : run_command env (str "brew") [str "list", str "--cask"]
        = .ok [] := by
      simp [run_command, h2]
    simp [brew_scan, hf, hc, Tag.new, brewCaskChanges, cleanLines, linesOf,
      splitOnNl, splitOnChar]
    decide

/-- The environment of the C2 counterexample: `brew list --formula`
exists but exits with a non-zero status; every other binary is absent. -/
def envBrewFails : CmdEnv := fun c a =>
  if c = str "brew" ∧ a = [str "list", str "--formula"] then .exited false []
  else .notFound

/-- C2 counterexample: the failing brew invocation is a hard error for
`run_command`, yet `BrewDetector::scan` still returns a successful
(empty) result instead of that error. -/
theorem brew_scan_swallows_error :
    run_command envBrewFails (str "brew") [str "list", str "--formula"]
      = .error (.Storage (str "brew exited with non-zero status")) ∧
    brew_scan envBrewFails ⟨str "macos", str "arm64"⟩ 0 (fun _ => 0)
      = .ok [] := by
  constructor
  · decide
  · decide

/-- C2 witness: all four conjuncts of the policy at concrete
environments. -/
theorem run_command_policy_witness :
    run_command (fun _ _ => .notFound) (str "brew") [] = .ok [] ∧
    run_command (fun _ _ => .exited false []) (str "brew") []
      = .error (.Storage (str "brew" ++ str " exited with non-zero status")) ∧
    npm_scan (fun _ _ => .exited false []) ⟨str "macos", str "arm64"⟩ 0
        (fun _ => 0)
      = .error (.Storage (str "npm" ++ str " exited with non-zero status")) ∧
    brew_scan envBrewFails ⟨str "macos", str "arm64"⟩ 0 (fun _ => 0)
      = .ok [] :=
  ⟨run_command_policy.1 _ _ _ rfl,
   run_command_policy.2.1 _ _ _ [] rfl,
   run_command_policy.2.2.1 _ _ _ _ [] rfl,
   run_command_policy.2.2.2 _ _ _ _ [] (by decide) (by decide)⟩

/-! ## C7: column splitting -/

/-- Well-formed tail of a column value: whitespace occurs only as an
isolated interior space followed by a non-whitespace character. -/
inductive FieldTail : List Char → Prop
  | nil : FieldTail []
  | cons {c : Char} {rest : List Char} :
      ¬ c.isWhitespace → FieldTail rest → FieldTail (c :: rest)
  | space {d : Char} {rest : List Char} :
      ¬ d.isWhitespace → FieldTail rest → FieldTail (' ' :: d :: rest)

/-- A well-formed column value: non-empty, starts with a non-whitespace
character, and its tail is a `FieldTail` (so it contains no run of two
or more whitespace characters, no leading or trailing whitespace, and
every interior whitespace character is a single space). -/
def GoodField (f : List Char) : Prop :=
  ∃ c t, f = c :: t ∧ ¬ c.isWhitespace ∧ FieldTail t

/-- A column separator: a run of at least two whitespace characters. -/
def SepRun (s : List Char) : Prop :=
  2 ≤ s.length ∧ ∀ c ∈ s, c.isWhitespace

theorem FieldTail.last_not_ws {t : List Char} (h : FieldTail t) :
    t = [] ∨ ∃ a, t.getLast? = some a ∧ ¬ a.isWhitespace := by
  induction h with
  | nil => exact Or.inl rfl
  | @cons c rest hc _ ih =>
    refine Or.inr ?_
    rcases ih with rfl | ⟨a, ha, hws⟩
    · exact ⟨c, rfl, hc⟩
    · rcases rest with _ | ⟨b, rest'⟩
      · simp at ha
      · exact ⟨a, by rwa [List.getLast?_cons_cons], hws⟩
  | @space d rest hd _ ih =>
    refine Or.inr ?_
    rcases ih with rfl | ⟨a, ha, hws⟩
    · exact ⟨d, by rw [List.getLast?_cons_cons]; rfl, hd⟩
    · rcases rest with _ | ⟨b, rest'⟩
      · simp at ha
      · exact ⟨a, by rwa [List.getLast?_cons_cons, List.getLast?_cons_cons],
               hws⟩

theorem trimEnd_of_last {l : List Char} {a : Char}
    (h : l.getLast? = some a) (hws : ¬ a.isWhitespace) : trimEnd l = l := by
  have hh : l.reverse.head? = some a := by rwa [List.head?_reverse]
  rcases hrev : l.reverse with _ | ⟨x, xs⟩
  · rw [hrev] at hh; cases hh
  · rw [hrev] at hh
    have hx : x = a := by injection hh
    subst hx
    unfold trimEnd
    rw [hrev, List.dropWhile_cons, if_neg (by simpa using hws), ← hrev]
    exact List.reverse_reverse l

theorem GoodField.trim_eq {f : List Char} (h : GoodField f) :
    trim f = f ∧ f ≠ [] := by
  obtain ⟨c, t, rfl, hc, ht⟩ := h
  have hstart : trimStart (c :: t) = c :: t := by
    unfold trimStart
    rw [List.dropWhile_cons, if_neg (by simpa using hc)]
  have hlast : (c :: t).getLast? = some c ∨
      ∃ a, (c :: t).getLast? = some a ∧ ¬ a.isWhitespace := by
    rcases ht.last_not_ws with rfl | ⟨a, ha, hws⟩
    · exact Or.inl rfl
    · rcases t with _ | ⟨b, t'⟩
      · simp at ha
      · exact Or.inr ⟨a, by rwa [List.getLast?_cons_cons], hws⟩
  have hend : trimEnd (c :: t) = c :: t := by
    rcases hlast with hl | ⟨a, ha, hws⟩
    · exact trimEnd_of_last hl hc
    · exact trimEnd_of_last ha hws
  exact ⟨by rw [trim, hstart, hend], by simp⟩

theorem splitColumnsGo_ws {cols : List (List Char)} {cur : List Char}
    {r : Nat} {ch : Char} {rest : List Char} (h : ch.isWhitespace) :
    splitColumnsGo cols cur r (ch :: rest)
      = splitColumnsGo cols cur (r + 1) rest := by
  simp [splitColumnsGo, h]

theorem splitColumnsGo_zero {cols : List (List Char)} {cur : List Char}
    {ch : Char} {rest : List Char} (h : ¬ ch.isWhitespace) :
    splitColumnsGo cols cur 0 (ch :: rest)
      = splitColumnsGo cols (cur ++ [ch]) 0 rest := by
  simp [splitColumnsGo, h]

theorem splitColumnsGo_one {cols : List (List Char)} {cur : List Char}
    {ch : Char} {rest : List Char} (h : ¬ ch.isWhitespace) :
    splitColumnsGo cols cur 1 (ch :: rest)
      = splitColumnsGo cols (cur ++ [' ', ch]) 0 rest := by
  simp [splitColumnsGo, h]

theorem splitColumnsGo_boundary {cols : List (List Char)} {cur : List Char}
    {r : Nat} {ch : Char} {rest : List Char} (h : ¬ ch.isWhitespace)
    (hr : 2 ≤ r) :
    splitColumnsGo cols cur r (ch :: rest)
      = splitColumnsGo
          (if ¬ trim cur = [] then cols ++ [trim cur] else cols)
          [ch] 0 rest := by
  have : r ≥ 2 := hr
  simp [splitColumnsGo, h, this]

/-- Consuming a well-formed field tail just extends the current column. -/
theorem splitColumnsGo_field {t : List Char} (ht : FieldTail t) :
    ∀ (cols : List (List Char)) (cur rest : List Char),
      splitColumnsGo cols cur 0 (t ++ rest)
        = splitColumnsGo cols (cur ++ t) 0 rest := by
  induction ht with
  | nil => intro cols cur rest; simp
  | @cons c t' hc _ ih =>
    intro cols cur rest
    rw [List.cons_append, splitColumnsGo_zero hc, ih, List.append_assoc]
    rfl
  | @space d t' hd _ ih =>
    intro cols cur rest
    rw [List.cons_append, List.cons_append,
      splitColumnsGo_ws (by decide), splitColumnsGo_one hd, ih,
      List.append_assoc]
    rfl

/-- Consuming a whitespace run just increases the space counter. -/
theorem splitColumnsGo_seprun {s : List Char} (hs : ∀ c ∈ s, c.isWhitespace) :
    ∀ (cols : List (List Char)) (cur : List Char) (r : Nat)
      (rest : List Char),
      splitColumnsGo cols cur r (s ++ rest)
        = splitColumnsGo cols cur (r + s.length) rest := by
  induction s with
  | nil => intro cols cur r rest; simp
  | cons c s' ih =>
    intro cols cur r rest
    rw [List.cons_append, splitColumnsGo_ws (hs c (List.mem_cons_self c s'))]
    rw [ih (fun x hx => hs x (List.mem_cons_of_mem c hx))]
    congr 1
    simp
    omega

/-- Invariant: with a completed good field in the accumulator, each
separator/field pair contributes exactly its field. -/
theorem splitColumnsGo_pairs (pairs : List (List Char × List Char)) :
    ∀ (cols : List (List Char)) (p : List Char),
      GoodField p →
      (∀ sf ∈ pairs, SepRun sf.1 ∧ GoodField sf.2) →
      splitColumnsGo cols p 0 ((pairs.map (fun sf => sf.1 ++ sf.2)).flatten)
        = cols ++ p :: pairs.map (fun sf => sf.2) := by
  induction pairs with
  | nil =>
    intro cols p hp _
    obtain ⟨htrim, hne⟩ := hp.trim_eq
    simp [splitColumnsGo, htrim, hne]
  | cons sf rest ih =>
    intro cols p hp hall
    obtain ⟨hsep, hf⟩ := hall sf (List.mem_cons_self sf rest)
    obtain ⟨htrim, hne⟩ := hp.trim_eq
    obtain ⟨d, t, hft, hd, ht⟩ := hf
    rw [List.map_cons, List.flatten_cons, List.append_assoc,
      splitColumnsGo_seprun hsep.2]
    rw [hft, List.cons_append, splitColumnsGo_boundary hd (by simpa using hsep.1)]
    rw [if_pos (by rw [htrim]; exact hne), htrim]
    rw [splitColumnsGo_field ht, List.singleton_append]
    rw [ih (cols ++ [p]) (d :: t) ⟨d, t, rfl, hd, ht⟩
      (fun x hx => hall x (List.mem_cons_of_mem sf hx))]
    simp [hft]

/-- C7: a line made of well-formed column values separated by runs of
two or more whitespace characters splits into exactly those values in
order (single interior spaces are preserved inside a value). -/
theorem split_columns_fields :
    ∀ (f : List Char) (pairs : List (List Char × List Char)),
      GoodField f →
      (∀ sf ∈ pairs, SepRun sf.1 ∧ GoodField sf.2) →
      split_columns (f ++ (pairs.map (fun sf => sf.1 ++ sf.2)).flatten)
        = f :: pairs.map (fun sf => sf.2) := by
  intro f pairs hf hall
  obtain ⟨c, t, rfl, hc, ht⟩ := hf
  unfold split_columns
  rw [List.cons_append, splitColumnsGo_zero hc, List.nil_append,
    splitColumnsGo_field ht, List.singleton_append]
  exact splitColumnsGo_pairs pairs [] (c :: t) ⟨c, t, rfl, hc, ht⟩ hall

/-- C7 witness: the specification's example line with three column
values separated by 16 and 14 spaces. -/
theorem split_columns_fields_witness :
    split_columns (str "Git.Git                Git.Git              2.40.0")
      = [str "Git.Git", str "Git.Git", str "2.40.0"] := by
  have htail1 : FieldTail ['i', 't', '.', 'G', 'i', 't'] := by
    repeat first
      | exact FieldTail.nil
      | refine FieldTail.space (by decide) ?_
      | refine FieldTail.cons (by decide) ?_
  have htail2 : FieldTail ['.', '4', '0', '.', '0'] := by
    repeat first
      | exact FieldTail.nil
      | refine FieldTail.space (by decide) ?_
      | refine FieldTail.cons (by decide) ?_
  have h := split_columns_fields ['G', 'i', 't', '.', 'G', 'i', 't']
    [(List.replicate 16 ' ', ['G', 'i', 't', '.', 'G', 'i', 't']),
     (List.replicate 14 ' ', ['2', '.', '4', '0', '.', '0'])]
    ⟨'G', ['i', 't', '.', 'G', 'i', 't'], rfl, by decide, htail1⟩
    (by
      intro sf hsf
      simp only [List.mem_cons, List.not_mem_nil, or_false] at hsf
      rcases hsf with rfl | rfl
      · exact ⟨⟨by decide, by decide⟩,
          ⟨'G', ['i', 't', '.', 'G', 'i', 't'], rfl, by decide, htail1⟩⟩
      · exact ⟨⟨by decide, by decide⟩,
          ⟨'2', ['.', '4', '0', '.', '0'], rfl, by decide, htail2⟩⟩)
  exact ((congrArg split_columns (by decide)).trans h).trans (by decide)

/-! ## C1: the document codec round trip

Support lemmas about line splitting and trimming. -/

theorem splitOnNl_ne_nil (l : List Char) : splitOnNl l ≠ [] := by
  induction l with
  | nil => simp [splitOnNl, splitOnChar]
  | cons c rest ih =>
    by_cases h : c = '\n'
    · simp [splitOnNl, splitOnChar, h]
    · simp only [splitOnNl, splitOnChar, if_neg h]
      rcases hr : splitOnChar '\n' rest with _ | ⟨p, ps⟩
      · simp
      · simp

/-- A newline seals the last piece: splitting `a ++ '\n' :: b` splits
the two halves independently. -/
theorem splitOnNl_append_nl (a b : List Char) :
    splitOnNl (a ++ '\n' :: b) = splitOnNl a ++ splitOnNl b := by
  induction a with
  | nil => simp [splitOnNl, splitOnChar]
  | cons c a' ih =>
    by_cases h : c = '\n'
    · show splitOnChar '\n' (c :: (a' ++ '\n' :: b)) = _
      simp only [splitOnChar, if_pos h]
      rw [show splitOnChar '\n' (a' ++ '\n' :: b) = splitOnNl a' ++ splitOnNl b from ih]
      simp only [splitOnNl, splitOnChar, if_pos h]
      rfl
    · show splitOnChar '\n' (c :: (a' ++ '\n' :: b)) = _
      simp only [splitOnChar, if_neg h]
      rw [show splitOnChar '\n' (a' ++ '\n' :: b) = splitOnNl a' ++ splitOnNl b from ih]
      rcases hr : splitOnNl a' with _ | ⟨p, ps⟩
      · exact absurd hr (splitOnNl_ne_nil a')
      · have hr' : splitOnChar '\n' a' = p :: ps := hr
        simp [splitOnNl, splitOnChar, if_neg h, hr']

theorem joinNl_splitOnNl (l : List Char) : joinNl (splitOnNl l) = l := by
  induction l with
  | nil => rfl
  | cons c rest ih =>
    rcases hr : splitOnNl rest with _ | ⟨p, ps⟩
    · exact absurd hr (splitOnNl_ne_nil rest)
    · rw [hr] at ih
      by_cases h : c = '\n'
      · subst h
        have hr' : splitOnChar '\n' rest = p :: ps := hr
        have hsplit : splitOnNl ('\n' :: rest) = [] :: p :: ps := by
          show splitOnChar '\n' ('\n' :: rest) = _
          simp [splitOnChar, hr']
        rw [hsplit]
        show [] ++ '\n' :: joinNl (p :: ps) = '\n' :: rest
        rw [List.nil_append, ih]
      · have hr' : splitOnChar '\n' rest = p :: ps := hr
        have hsplit : splitOnNl (c :: rest) = (c :: p) :: ps := by
          show splitOnChar '\n' (c :: rest) = _
          simp [splitOnChar, if_neg h, hr']
        rw [hsplit]
        rcases ps with _ | ⟨q, qs⟩
        · show c :: p = c :: rest
          rw [show p = rest from ih]
        · show (c :: p) ++ '\n' :: joinNl (q :: qs) = c :: rest
          rw [List.cons_append,
            show p ++ '\n' :: joinNl (q :: qs) = rest from ih]

theorem joinNl_append_nil_piece (X : List (List Char)) (h : X ≠ []) :
    joinNl (X ++ [[]]) = joinNl X ++ ['\n'] := by
  induction X with
  | nil => exact absurd rfl h
  | cons x xs ih =>
    rcases xs with _ | ⟨y, ys⟩
    · rfl
    · have hih := ih (by simp)
      show x ++ '\n' :: joinNl (y :: (ys ++ [[]]))
        = (x ++ '\n' :: joinNl (y :: ys)) ++ ['\n']
      rw [show joinNl (y :: (ys ++ [[]])) = joinNl ((y :: ys) ++ [[]]) from rfl,
        hih]
      simp

theorem mem_of_mem_splitOnNl {p l : List Char} {c : Char}
    (hp : p ∈ splitOnNl l) (hc : c ∈ p) : c ∈ l := by
  induction l generalizing p with
  | nil =>
    simp only [splitOnNl, splitOnChar, List.mem_singleton] at hp
    subst hp
    cases hc
  | cons d rest ih =>
    by_cases h : d = '\n'
    · simp only [splitOnNl, splitOnChar, if_pos h, List.mem_cons] at hp
      rcases hp with rfl | hp
      · cases hc
      · exact List.mem_cons_of_mem d (ih hp hc)
    · simp only [splitOnNl, splitOnChar, if_neg h] at hp
      rcases hr : splitOnChar '\n' rest with _ | ⟨q, qs⟩
      · exact absurd hr (splitOnNl_ne_nil rest)
      · rw [hr] at hp
        rcases List.mem_cons.mp hp with rfl | hp
        · rcases List.mem_cons.mp hc with rfl | hc
          · exact List.mem_cons_self c rest
          · refine List.mem_cons_of_mem d (ih ?_ hc)
            rw [show splitOnNl rest = q :: qs from hr]
            exact List.mem_cons_self q qs
        · refine List.mem_cons_of_mem d (ih ?_ hc)
          rw [show splitOnNl rest = q :: qs from hr]
          exact List.mem_cons_of_mem q hp

theorem stripCr_eq_self {p : List Char} (h : '\r' ∉ p) : stripCr p = p := by
  unfold stripCr
  rcases hl : p.getLast? with _ | a
  · simp
  · have hmem : a ∈ p := by
      obtain ⟨hne, heq⟩ :=
        List.mem_getLast?_eq_getLast (show a ∈ p.getLast? from hl)
      rw [heq]
      exact List.getLast_mem hne
    have : ¬ a = '\r' := fun hh => h (hh ▸ hmem)
    simp [this]

theorem trimStart_eq_self_of_trim {l : List Char} (h : trim l = l) :
    trimStart l = l := by
  have hsuf : trimStart l <:+ l := List.dropWhile_suffix _
  refine hsuf.eq_of_length ?_
  have h1 : (trimStart l).length ≤ l.length := hsuf.length_le
  have h2 : (trim l).length ≤ (trimStart l).length := by
    unfold trim trimEnd
    simpa using (List.dropWhile_suffix (l := (trimStart l).reverse)
      (p := Char.isWhitespace)).length_le
  rw [h] at h2
  omega

theorem trimEnd_eq_self_of_trim {l : List Char} (h : trim l = l) :
    trimEnd l = l := by
  have hs := trimStart_eq_self_of_trim h
  unfold trim at h
  rwa [hs] at h

/-- Appending a trailing newline does not change the trimmed value. -/
theorem trim_append_nl {r : List Char} (h : trim r = r) (hne : r ≠ []) :
    trim (r ++ ['\n']) = r := by
  have hstart := trimStart_eq_self_of_trim h
  have hend := trimEnd_eq_self_of_trim h
  rcases hr : r with _ | ⟨c, t⟩
  · exact absurd hr hne
  · have hcws : ¬ c.isWhitespace := by
      intro hws
      rw [hr] at hstart
      unfold trimStart at hstart
      rw [List.dropWhile_cons, if_pos hws] at hstart
      have hlen := congrArg List.length hstart
      have := (List.dropWhile_suffix (l := t)
        (p := Char.isWhitespace)).length_le
      simp at hlen
      omega
    rw [← hr]
    have h1 : trimStart (r ++ ['\n']) = r ++ ['\n'] := by
      rw [hr]
      unfold trimStart
      rw [List.cons_append, List.dropWhile_cons, if_neg (by simpa using hcws)]
    have h2 : trimEnd (r ++ ['\n']) = trimEnd r := by
      unfold trimEnd
      rw [List.reverse_append]
      simp only [List.reverse_singleton, List.singleton_append,
        List.dropWhile_cons]
      rw [if_pos (by decide)]
    unfold trim
    rw [h1, h2, hend]


theorem prefix_append_iff_of_le {m x : List Char} (b : List Char)
    (h : m.length ≤ x.length) : m <+: (x ++ b) ↔ m <+: x := by
  constructor
  · intro hp
    rw [List.prefix_iff_eq_take] at hp ⊢
    rwa [List.take_append_eq_append_take, Nat.sub_eq_zero_of_le h,
      List.take_zero, List.append_nil] at hp
  · intro hp
    exact hp.trans (List.prefix_append x b)

theorem isPrefixOf_append_right {m x : List Char} (b : List Char)
    (h : m.length ≤ x.length) :
    m.isPrefixOf (x ++ b) = m.isPrefixOf x := by
  by_cases hp : m <+: x
  · rw [List.isPrefixOf_iff_prefix.mpr hp,
      List.isPrefixOf_iff_prefix.mpr ((prefix_append_iff_of_le b h).mpr hp)]
  · have e1 : m.isPrefixOf (x ++ b) = false :=
      Bool.eq_false_iff.mpr (fun ht =>
        hp ((prefix_append_iff_of_le b h).mp (List.isPrefixOf_iff_prefix.mp ht)))
    have e2 : m.isPrefixOf x = false :=
      Bool.eq_false_iff.mpr (fun ht => hp (List.isPrefixOf_iff_prefix.mp ht))
    rw [e1, e2]

/-- `str::find` locates the marker right after `a` when no earlier
position of `a ++ m` starts the marker. -/
theorem splitFirst_eq {m : List Char} (hm : m ≠ []) :
    ∀ (a b : List Char),
      (∀ i, i < a.length → ¬ m.isPrefixOf ((a ++ m).drop i) = true) →
      splitFirst m ((a ++ m) ++ b) = some (a, b) := by
  intro a
  induction a with
  | nil =>
    intro b _
    rcases m with _ | ⟨mc, mt⟩
    · exact absurd rfl hm
    · have hcond : (mc :: mt).isPrefixOf (mc :: (mt ++ b)) = true :=
        List.isPrefixOf_iff_prefix.mpr
          (by rw [← List.cons_append]; exact List.prefix_append _ b)
      show splitFirst (mc :: mt) (mc :: (mt ++ b)) = some ([], b)
      rw [splitFirst, hcond]
      simp only [if_true]
      rw [show mc :: (mt ++ b) = (mc :: mt) ++ b from rfl, List.drop_left]
  | cons c a' ih =>
    intro b hno
    have h0 := hno 0 (by simp)
    rw [List.drop_zero] at h0
    have hcond : m.isPrefixOf (c :: ((a' ++ m) ++ b)) = false := by
      rw [show c :: ((a' ++ m) ++ b) = (c :: (a' ++ m)) ++ b from rfl]
      rw [isPrefixOf_append_right b (by simp; omega)]
      rw [show c :: (a' ++ m) = (c :: a') ++ m from rfl]
      exact Bool.eq_false_iff.mpr h0
    have hih : splitFirst m ((a' ++ m) ++ b) = some (a', b) := by
      refine ih b ?_
      intro i hi
      have := hno (i + 1) (by simpa using Nat.succ_lt_succ hi)
      rwa [show (c :: a') ++ m = c :: (a' ++ m) from rfl,
        List.drop_succ_cons] at this
    show splitFirst m (c :: ((a' ++ m) ++ b)) = some (c :: a', b)
    rw [splitFirst, hcond]
    simp only [Bool.false_eq_true, if_false]
    rw [hih]
    rfl

/-- `split_frontmatter` on a rendered document cuts exactly at the
closing marker line, provided the yaml block does not itself embed the
marker. -/
theorem split_frontmatter_of_render (y bc : List Char)
    (hno : ∀ i, i < y.length →
      ¬ (str "\n---\n").isPrefixOf ((y ++ str "\n---\n").drop i) = true)
    (hbc : trimStart bc = bc) :
    split_frontmatter (str "---\n" ++ ((y ++ ['\n']) ++ (str "---\n\n" ++ bc)))
      = .ok (trimEnd y, bc) := by
  unfold split_frontmatter
  have hpre : (str "---\n").isPrefixOf
      (str "---\n" ++ ((y ++ ['\n']) ++ (str "---\n\n" ++ bc))) = true :=
    List.isPrefixOf_iff_prefix.mpr (List.prefix_append _ _)
  simp only [hpre, if_true, List.drop_left]
  have hz : (y ++ ['\n']) ++ (str "---\n\n" ++ bc)
      = (y ++ str "\n---\n") ++ ('\n' :: bc) := by
    simp only [List.append_assoc]
    rfl
  rw [hz, splitFirst_eq (by decide) y ('\n' :: bc) hno]
  have htrim : trimStart ('\n' :: bc) = bc := by
    unfold trimStart
    rw [List.dropWhile_cons, if_pos (by decide)]
    exact hbc
  show Except.ok (trimEnd y, trimStart ('\n' :: bc))
    = Except.ok (trimEnd y, bc)
  rw [htrim]

/-- The lines of a rendered body: heading, rationale lines, a blank
line, the verification heading and the verification lines. -/
theorem linesOf_body (r v : List Char) (hrCr : '\r' ∉ r) (hvCr : '\r' ∉ v) :
    linesOf (str "# Rationale\n"
        ++ (r ++ (str "\n\n# Verification\n" ++ (v ++ ['\n']))))
      = str "# Rationale"
          :: (splitOnNl r ++ ([] :: (str "# Verification" :: splitOnNl v))) := by
  have h1 : str "# Rationale\n"
        ++ (r ++ (str "\n\n# Verification\n" ++ (v ++ ['\n'])))
      = str "# Rationale"
        ++ '\n' :: (r ++ '\n' :: ([] ++ '\n'
            :: (str "# Verification" ++ '\n' :: (v ++ '\n' :: [])))) := by
    simp only [List.append_assoc, List.nil_append]
    rfl
  have hsplit : splitOnNl (str "# Rationale\n"
        ++ (r ++ (str "\n\n# Verification\n" ++ (v ++ ['\n']))))
      = splitOnNl (str "# Rationale")
        ++ (splitOnNl r ++ (splitOnNl ([] : List Char)
            ++ (splitOnNl (str "# Verification")
              ++ (splitOnNl v ++ splitOnNl ([] : List Char))))) := by
    rw [h1, splitOnNl_append_nl, splitOnNl_append_nl, splitOnNl_append_nl,
      splitOnNl_append_nl, splitOnNl_append_nl]
  rw [linesOf] at *
  rw [hsplit]
  have hR : splitOnNl (str "# Rationale") = [str "# Rationale"] := by decide
  have hV : splitOnNl (str "# Verification") = [str "# Verification"] := by
    decide
  have hN : splitOnNl ([] : List Char) = [[]] := by decide
  rw [hR, hV, hN]
  have hconcat : [str "# Rationale"]
        ++ (splitOnNl r ++ ([[]] ++ ([str "# Verification"]
            ++ (splitOnNl v ++ [[]]))))
      = (str "# Rationale"
          :: (splitOnNl r ++ ([] :: (str "# Verification" :: splitOnNl v))))
        ++ [[]] := by
    simp
  rw [hconcat]
  rw [List.getLast?_concat, if_pos rfl, List.dropLast_concat]
  have hmapr : (splitOnNl r).map stripCr = splitOnNl r := by
    rw [show (splitOnNl r).map stripCr
        = (splitOnNl r).map id from List.map_congr_left
          (fun p hp => stripCr_eq_self
            (fun hcr => hrCr (mem_of_mem_splitOnNl hp hcr))),
      List.map_id]
  have hmapv : (splitOnNl v).map stripCr = splitOnNl v := by
    rw [show (splitOnNl v).map stripCr
        = (splitOnNl v).map id from List.map_congr_left
          (fun p hp => stripCr_eq_self
            (fun hcr => hvCr (mem_of_mem_splitOnNl hp hcr))),
      List.map_id]
  simp only [List.map_cons, List.map_append, hmapr, hmapv]
  rw [show stripCr (str "# Rationale") = str "# Rationale" from by decide,
    show stripCr (str "# Verification") = str "# Verification" from by decide,
    show stripCr ([] : List Char) = [] from by decide]

theorem collectSection_append_of_no_stop {X : List (List Char)}
    (h : ∀ p ∈ X, isStopLine p = false) (Y : List (List Char)) :
    collectSection (X ++ Y) = X ++ collectSection Y := by
  induction X with
  | nil => simp
  | cons x xs ih =>
    have hx : isStopLine x = false := h x (List.mem_cons_self x xs)
    rw [List.cons_append, collectSection, hx]
    simp only [Bool.false_eq_true, if_false]
    rw [ih (fun p hp => h p (List.mem_cons_of_mem x hp))]
    rfl

theorem collectSection_of_no_stop {X : List (List Char)}
    (h : ∀ p ∈ X, isStopLine p = false) : collectSection X = X := by
  have hthis := collectSection_append_of_no_stop h []
  rw [List.append_nil] at hthis
  rw [hthis, show collectSection ([] : List (List Char)) = [] from rfl,
    List.append_nil]

theorem extractSectionLines_append_of_no_match {heading : List Char}
    {X : List (List Char)} (h : ∀ p ∈ X, ¬ trim p = str "# " ++ heading)
    (Y : List (List Char)) :
    extractSectionLines heading (X ++ Y) = extractSectionLines heading Y := by
  induction X with
  | nil => simp
  | cons x xs ih =>
    rw [List.cons_append, extractSectionLines,
      if_neg (h x (List.mem_cons_self x xs))]
    exact ih (fun p hp => h p (List.mem_cons_of_mem x hp))

/-- A line whose trimmed form is a heading is a stop line. -/
theorem isStopLine_of_trim_heading {p h : List Char}
    (hp : trim p = str "# " ++ h) : isStopLine p = true := by
  unfold isStopLine
  refine List.isPrefixOf_iff_prefix.mpr ?_
  have h1 : trim p <+: trimStart p := by
    have h2 : (trimStart p).reverse.dropWhile Char.isWhitespace
        <:+ (trimStart p).reverse := List.dropWhile_suffix _
    have h3 := (@List.reverse_prefix Char
      ((trimStart p).reverse.dropWhile Char.isWhitespace)
      ((trimStart p).reverse)).mpr h2
    rw [List.reverse_reverse] at h3
    exact h3
  rw [hp] at h1
  exact (List.prefix_append (str "# ") h).trans h1

theorem splitOnNl_piece_no_heading {r heading : List Char}
    (hrStop : ∀ p ∈ splitOnNl r, isStopLine p = false) :
    ∀ p ∈ splitOnNl r, ¬ trim p = str "# " ++ heading := fun p hp htr => by
  have := isStopLine_of_trim_heading htr
  rw [hrStop p hp] at this
  cases this

theorem collectTags_map_as_str (tags : List Tag)
    (h : ∀ t ∈ tags, ¬ trim t.value = []) :
    collectTags (tags.map Tag.as_str) = .ok tags := by
  induction tags with
  | nil => rfl
  | cons t ts ih =>
    simp only [List.map_cons, collectTags, Tag.as_str, Tag.new,
      if_neg (h t (List.mem_cons_self t ts))]
    rw [ih (fun x hx => h x (List.mem_cons_of_mem t hx))]
    rfl

/-- Extracting both sections from a rendered body returns the rationale
and verification text verbatim. -/
theorem extract_section_of_body (r v : List Char)
    (hr : trim r = r) (hrne : r ≠ []) (hrCr : '\r' ∉ r)
    (hrStop : ∀ p ∈ splitOnNl r, isStopLine p = false)
    (hv : trim v = v) (hvCr : '\r' ∉ v)
    (hvStop : ∀ p ∈ splitOnNl v, isStopLine p = false) :
    extract_section
        (str "# Rationale\n"
          ++ (r ++ (str "\n\n# Verification\n" ++ (v ++ ['\n']))))
        (str "Rationale") = some r ∧
    extract_section
        (str "# Rationale\n"
          ++ (r ++ (str "\n\n# Verification\n" ++ (v ++ ['\n']))))
        (str "Verification") = some v := by
  unfold extract_section
  rw [linesOf_body r v hrCr hvCr]
  constructor
  · rw [extractSectionLines, if_pos (by decide)]
    rw [collectSection_append_of_no_stop hrStop]
    rw [collectSection, if_neg (by decide)]
    rw [collectSection, if_pos (by decide)]
    rw [joinNl_append_nil_piece (splitOnNl r) (splitOnNl_ne_nil r),
      joinNl_splitOnNl, trim_append_nl hr hrne]
  · rw [extractSectionLines, if_neg (by decide)]
    rw [extractSectionLines_append_of_no_match
      (splitOnNl_piece_no_heading hrStop)]
    rw [extractSectionLines, if_neg (by decide)]
    rw [extractSectionLines, if_pos (by decide)]
    rw [collectSection_of_no_stop hvStop, joinNl_splitOnNl, hv]

/-- C1 (amended): rendering then parsing an entry reproduces it exactly,
for a correct frontmatter codec (`serde_yaml`, abstracted as the
`yamlEnc`/`yamlDec` hypotheses) and an entry whose rationale and
verification text are trim-stable, free of carriage returns and contain
no line starting (after leading whitespace) with `"# "`, with
`verification = some v`; a `none` verification does not round-trip (see
the counterexample). -/
theorem render_parse_round_trip
    (yamlEnc : Frontmatter → List Char)
    (yamlDec : List Char → Option Frontmatter)
    (e : Entry) (y v : List Char)
    (hy : yamlEnc (frontmatter_of e) = y ++ ['\n'])
    (hyNoMarker : ∀ i, i < y.length →
      ¬ (str "\n---\n").isPrefixOf ((y ++ str "\n---\n").drop i) = true)
    (hyDec : yamlDec (trimEnd y) = some (frontmatter_of e))
    (hTitle : ¬ trim e.title = []) (hSource : ¬ trim e.source = [])
    (hCmd : ¬ trim e.cmd = [])
    (hTags : ∀ t ∈ e.tags, ¬ trim t.value = [])
    (hr : trim e.rationale.text = e.rationale.text)
    (hrne : e.rationale.text ≠ [])
    (hrCr : '\r' ∉ e.rationale.text)
    (hrStop : ∀ p ∈ splitOnNl e.rationale.text, isStopLine p = false)
    (hv : e.verification = some v)
    (hvTrim : trim v = v) (hvCr : '\r' ∉ v)
    (hvStop : ∀ p ∈ splitOnNl v, isStopLine p = false) :
    parse_entry yamlDec (render_entry yamlEnc e) = .ok e := by
  set B := str "# Rationale\n"
    ++ (e.rationale.text ++ (str "\n\n# Verification\n" ++ (v ++ ['\n'])))
    with hBdef
  have hrender : render_entry yamlEnc e
      = str "---\n" ++ ((y ++ ['\n']) ++ (str "---\n\n" ++ B)) := by
    unfold render_entry
    rw [hy, hv, hBdef]
    simp [Rationale.as_str, List.append_assoc]
  have hB : trimStart B = B := by
    have hhead : B = '#' :: (str " Rationale\n"
        ++ (e.rationale.text
          ++ (str "\n\n# Verification\n" ++ (v ++ ['\n'])))) := rfl
    rw [hhead]
    unfold trimStart
    rw [List.dropWhile_cons, if_neg (by decide)]
  have hsplit : split_frontmatter (render_entry yamlEnc e)
      = .ok (trimEnd y, B) := by
    rw [hrender]
    exact split_frontmatter_of_render y B hyNoMarker hB
  have hfm : parse_frontmatter yamlDec (render_entry yamlEnc e)
      = .ok (frontmatter_of e) := by
    unfold parse_frontmatter
    rw [hsplit]
    show (match yamlDec (trimEnd y) with
      | some fm => Except.ok fm
      | none => Except.error (CoreErr.Storage (str "invalid frontmatter"))) = _
    rw [hyDec]
  have hbody : parse_body (render_entry yamlEnc e) = .ok B := by
    unfold parse_body
    rw [hsplit]
    rfl
  obtain ⟨hexR, hexV⟩ := extract_section_of_body e.rationale.text v
    hr hrne hrCr hrStop hvTrim hvCr hvStop
  have hrne' : ¬ trim e.rationale.text = [] := by
    rw [hr]; exact hrne
  have htags : collectTags (frontmatter_of e).tags = .ok e.tags :=
    collectTags_map_as_str e.tags hTags
  unfold parse_entry
  rw [hfm, hbody]
  show (do
    let rationaleText ←
      match extract_section B (str "Rationale") with
      | some text => Except.ok text
      | none => Except.error (CoreErr.Storage (str "missing rationale section"))
    let rationale ← Rationale.new rationaleText
    let verification := extract_section B (str "Verification")
    let tags ← collectTags (frontmatter_of e).tags
    Entry.new (frontmatter_of e).id (frontmatter_of e).title
      (frontmatter_of e).entry_type (frontmatter_of e).source
      (frontmatter_of e).cmd (frontmatter_of e).system
      (frontmatter_of e).detected_at (frontmatter_of e).status tags rationale
      verification) = Except.ok e
  rw [hexR, hexV]
  show (do
    let rationale ← Rationale.new e.rationale.text
    let tags ← collectTags (frontmatter_of e).tags
    Entry.new (frontmatter_of e).id (frontmatter_of e).title
      (frontmatter_of e).entry_type (frontmatter_of e).source
      (frontmatter_of e).cmd (frontmatter_of e).system
      (frontmatter_of e).detected_at (frontmatter_of e).status tags rationale
      (some v)) = Except.ok e
  rw [Rationale.new, if_neg hrne']
  show (do
    let tags ← collectTags (frontmatter_of e).tags
    Entry.new (frontmatter_of e).id (frontmatter_of e).title
      (frontmatter_of e).entry_type (frontmatter_of e).source
      (frontmatter_of e).cmd (frontmatter_of e).system
      (frontmatter_of e).detected_at (frontmatter_of e).status tags
      ⟨e.rationale.text⟩ (some v)) = Except.ok e
  rw [htags]
  show Entry.new e.id e.title e.entry_type e.source e.cmd e.system
    e.detected_at e.status e.tags ⟨e.rationale.text⟩ (some v) = Except.ok e
  rw [Entry.new, if_neg hTitle, if_neg hSource, if_neg hCmd]
  rw [← hv]

/-- A sample entry used by the C1 witness. -/
def sampleEntry : Entry :=
  ⟨7, str "jq", .Package, str "homebrew", str "brew install jq",
   ⟨str "macos", str "arm64"⟩, 42, .Active, [⟨str "cli"⟩],
   ⟨str "json parsing"⟩, some (str "jq --version")⟩

/-- The same entry with no verification text, for the C1 counterexample. -/
def sampleEntryNoVerif : Entry := { sampleEntry with verification := none }

/-- Stand-in for `serde_yaml::to_string` at the sample frontmatter. -/
def mockYamlEnc : Frontmatter → List Char := fun _ => str "id: 7\n"

/-- Stand-in for `serde_yaml::from_str`, inverting `mockYamlEnc`. -/
def mockYamlDec (fm : Frontmatter) : List Char → Option Frontmatter :=
  fun s => if s = str "id: 7" then some fm else none

/-- C1 counterexample: for a valid entry with `verification = none`
(and no marker sequence in any text field), parsing the rendered
document yields `verification = some ""`, so the round trip does not
return an entry equal to the original in every field. -/
theorem render_parse_loses_none_verification :
    mockYamlDec (frontmatter_of sampleEntryNoVerif)
        (trimEnd (str "id: 7"))
      = some (frontmatter_of sampleEntryNoVerif) ∧
    parse_entry (mockYamlDec (frontmatter_of sampleEntryNoVerif))
        (render_entry mockYamlEnc sampleEntryNoVerif)
      = .ok { sampleEntryNoVerif with verification := some [] } ∧
    ¬ parse_entry (mockYamlDec (frontmatter_of sampleEntryNoVerif))
        (render_entry mockYamlEnc sampleEntryNoVerif)
      = .ok sampleEntryNoVerif := by
  refine ⟨by decide, by decide, by decide⟩

/-- C1 witness: the amended round trip at a concrete entry with a
concrete frontmatter codec. -/
theorem render_parse_round_trip_witness :
    parse_entry (mockYamlDec (frontmatter_of sampleEntry))
        (render_entry mockYamlEnc sampleEntry)
      = .ok sampleEntry :=
  render_parse_round_trip mockYamlEnc
    (mockYamlDec (frontmatter_of sampleEntry)) sampleEntry
    (str "id: 7") (str "jq --version")
    (by decide) (by decide) (by decide) (by decide) (by decide) (by decide)
    (by decide) (by decide) (by decide) (by decide) (by decide) (by decide)
    (by decide) (by decide) (by decide)
